import Mathlib

/-!
# Verification of the compress-png encoding-selection pipeline

Shallow embedding of `src/main.rs` (a lossless PNG re-encoding optimizer).
Bytes are modelled as `Nat` (the program only copies bytes and compares them
for equality, so byte arithmetic never overflows); the one wrapping
operation, the `u32` frequency counter of the palette builder, is modelled
with an explicit mod 2^32 (`count_u32`).

The three stages embedded here:
* `trivial_compress` — the color-model reducer;
* `calc_pallet` — the palette builder (Rust iterates a `HashMap` and sorts the
  `(color, count)` pairs with `sort_unstable_by` on the count alone, so the
  order of equal-count colors is *not* determined by the input; we make that
  explicit by passing the sorted pair list as a parameter constrained by
  `ValidOrder`, which states exactly what `HashMap` iteration plus the
  unstable descending sort guarantee);
* the filter-search loop of `main`, with the external `encode` service as an
  abstract function parameter (`selectBest`).
-/

/-- The `png::ColorType` enumeration (the variants used by the program). -/
inductive ColorType where
  | Grayscale
  | Rgb
  | Indexed
  | GrayscaleAlpha
  | Rgba
deriving DecidableEq, Repr

/-- The `png::BitDepth` enumeration; the program only ever uses `Eight`. -/
inductive BitDepth where
  | One
  | Two
  | Four
  | Eight
  | Sixteen
deriving DecidableEq, Repr

/-- The `png::FilterType` enumeration. -/
inductive FilterType where
  | NoFilter
  | Sub
  | Up
  | Avg
  | Paeth
deriving DecidableEq, Repr

/-- `data.iter_ga()`: group a flat byte slice into (gray, alpha) pairs;
`Itertools::tuples` silently drops a trailing incomplete group. -/
def iter_ga : List Nat → List (Nat × Nat)
  | g :: a :: rest => (g, a) :: iter_ga rest
  | _ => []

/-- `data.iter_rgb()`: group a flat byte slice into (r, g, b) triples;
a trailing incomplete group is dropped. -/
def iter_rgb : List Nat → List (Nat × Nat × Nat)
  | r :: g :: b :: rest => (r, g, b) :: iter_rgb rest
  | _ => []

/-- `data.iter_rgba()`: group a flat byte slice into (r, g, b, a) quadruples;
a trailing incomplete group is dropped. -/
def iter_rgba : List Nat → List (Nat × Nat × Nat × Nat)
  | r :: g :: b :: a :: rest => (r, g, b, a) :: iter_rgba rest
  | _ => []

/-- `data.iter().step_by(4)`: the bytes at indices 0, 4, 8, …
(used for the gray channel of an all-gray RGBA buffer). -/
def step_by_4 : List Nat → List Nat
  | x :: _ :: _ :: _ :: rest => x :: step_by_4 rest
  | x :: _ => [x]
  | [] => []

/-- `data.iter().skip(3).step_by(4)`: the bytes at indices 3, 7, 11, …
(the alpha bytes of an RGBA buffer). -/
def alpha_bytes : List Nat → List Nat
  | _ :: _ :: _ :: a :: rest => a :: alpha_bytes rest
  | _ => []

/-- The body of the `ColorType::Rgb` arm of `trivial_compress`: push the
shared channel value per pixel, bailing out (`none`, the early `return` in
Rust) at the first pixel whose channels differ. -/
def rgb_to_gray : List (Nat × Nat × Nat) → Option (List Nat)
  | [] => some []
  | (r, g, b) :: rest =>
      if r = g ∧ r = b then (rgb_to_gray rest).map (fun l => r :: l) else none

/-- The body of the `ColorType::GrayscaleAlpha` arm of `trivial_compress`:
push the gray byte per pixel, bailing out at the first non-opaque alpha. -/
def ga_to_gray : List (Nat × Nat) → Option (List Nat)
  | [] => some []
  | (g, a) :: rest =>
      if a = 255 then (ga_to_gray rest).map (fun l => g :: l) else none

/-- The RGB-building loop of the `ColorType::Rgba` arm: keep r, g, b and
drop the alpha byte of every pixel. -/
def rgba_drop_alpha : List (Nat × Nat × Nat × Nat) → List Nat
  | [] => []
  | (r, g, b, _) :: rest => r :: g :: b :: rgba_drop_alpha rest

/-- `trivial_compress(data, color)` from `src/main.rs`. The
`ColorType::Indexed` arm is `unreachable!()` in the source, which we model as
`none`; every other arm totally returns a `(buffer, layout)` pair. -/
def trivial_compress (data : List Nat) (color : ColorType) :
    Option (List Nat × ColorType) :=
  match color with
  | .Grayscale => some (data, .Grayscale)
  | .Rgb =>
      match rgb_to_gray (iter_rgb data) with
      | some gray => some (gray, .Grayscale)
      | none => some (data, .Rgb)
  | .Indexed => none
  | .GrayscaleAlpha =>
      match ga_to_gray (iter_ga data) with
      | some gray => some (gray, .Grayscale)
      | none => some (data, .GrayscaleAlpha)
  | .Rgba =>
      if (alpha_bytes data).any (fun a => decide (a ≠ 255)) then
        some (data, .Rgba)
      else if (iter_rgba data).all
          (fun p => decide (p.1 = p.2.1 ∧ p.1 = p.2.2.1)) then
        some (step_by_4 data, .Grayscale)
      else
        some (rgba_drop_alpha (iter_rgba data), .Rgb)

/-- Flatten the sorted `(color, count)` vector into the palette byte table
(`pallet.push(r); pallet.push(g); pallet.push(b)` in the source). -/
def pallet_flatten : List ((Nat × Nat × Nat) × Nat) → List Nat
  | [] => []
  | ((r, g, b), _) :: rest => r :: g :: b :: pallet_flatten rest

/-- The index assigned to a color by `pallet_map`: its position in the sorted
`(color, count)` vector (`count.iter().enumerate()` in the source). -/
def pallet_index (ord : List ((Nat × Nat × Nat) × Nat)) (c : Nat × Nat × Nat) :
    Nat :=
  ord.findIdx (fun p => decide (p.1 = c))

/-- The frequency stored by `calc_pallet`'s map for one color:
`*count.entry(rgb).or_insert(0u32) += 1` counts in a `u32`, whose `+= 1`
wraps around, so the stored frequency is the pixel multiplicity mod 2^32,
not the true multiplicity. -/
def count_u32 (data : List Nat) (c : Nat × Nat × Nat) : Nat :=
  (iter_rgb data).count c % 2 ^ 32

/-- What the Rust `HashMap` iteration followed by
`sort_unstable_by(|a, b| b.1.cmp(&a.1))` guarantees about the vector `count`:
its keys are the distinct colors of the pixel sequence (no duplicates, each
paired with its wrapping-u32 frequency `count_u32`, all pixels covered) and
the stored counts are weakly descending (pairwise, which for this transitive
relation is the same as adjacent-sorted). Nothing more is guaranteed: the
relative order of colors with equal stored counts depends on the per-process
random `HashMap` state. -/
abbrev ValidOrder (data : List Nat)
    (ord : List ((Nat × Nat × Nat) × Nat)) : Prop :=
  (ord.map Prod.fst).Nodup ∧
  (∀ p ∈ ord, p.1 ∈ iter_rgb data ∧ p.2 = count_u32 data p.1) ∧
  (∀ c ∈ iter_rgb data, c ∈ ord.map Prod.fst) ∧
  List.Pairwise (fun a b => b.2 ≤ a.2) ord

/-- `calc_pallet(data, color)` from `src/main.rs`, parameterized by the
sorted `(color, count)` vector `ord` (see `ValidOrder`). The `> 256` test is
on `count.len()`, the number of distinct pixel colors. -/
def calc_pallet (data : List Nat) (color : ColorType)
    (ord : List ((Nat × Nat × Nat) × Nat)) :
    List Nat × Option (List Nat) × ColorType × BitDepth :=
  match color with
  | .Rgb =>
      if (iter_rgb data).dedup.length > 256 then
        (data, none, .Rgb, .Eight)
      else
        ((iter_rgb data).map (pallet_index ord), some (pallet_flatten ord),
          .Indexed, .Eight)
  | c => (data, none, c, .Eight)

/-- Look an index byte up in the flat palette table: palette entry `i` is
the three bytes starting at offset `3*i`. -/
def pallet_lookup (pal : List Nat) (i : Nat) : Option (Nat × Nat × Nat) :=
  match pal.drop (3 * i) with
  | r :: g :: b :: _ => some (r, g, b)
  | _ => none

/-- `usize::MAX` on a 64-bit target, the initial value of `best_size`. -/
def usizeMax : Nat := 2 ^ 64 - 1

/-- The fixed strategy array of the filter loop in `main`:
`[NoFilter, Sub, Up, Avg, Paeth]`. -/
def filterList : List FilterType :=
  [.NoFilter, .Sub, .Up, .Avg, .Paeth]

/-- The position of a strategy in the fixed enumeration order. -/
def filterIdx : FilterType → Nat
  | .NoFilter => 0
  | .Sub => 1
  | .Up => 2
  | .Avg => 3
  | .Paeth => 4

/-- The filter-search loop of `main`: fold over the five strategies keeping
`(best_size, best_out)`, replacing the best only on a strictly smaller
output; the external `encode` call is the abstract parameter `enc`. -/
def selectBest (enc : FilterType → List Nat) : Nat × List Nat :=
  filterList.foldl
    (fun best f =>
      let out := enc f
      if out.length < best.1 then (out.length, out) else best)
    (usizeMax, [])

/-- The whole pipeline of `main` after decoding: color reduction, palette
construction (with its run-dependent order `ord`), then the filter search
over the abstract encoder `enc` (which receives buffer, palette, layout and
bit depth exactly as `encode` does). -/
def pipeline
    (enc : List Nat → Option (List Nat) → ColorType → BitDepth →
      FilterType → List Nat)
    (data : List Nat) (color : ColorType)
    (ord : List ((Nat × Nat × Nat) × Nat)) : Option (List Nat) :=
  match trivial_compress data color with
  | none => none
  | some (buf, c) =>
      match calc_pallet buf c ord with
      | (buf2, pal, c2, d) => some (selectBest (fun f => enc buf2 pal c2 d f)).2

/-! ## Helper lemmas about the pixel iterators and loop bodies -/

theorem rgb_to_gray_all {l : List (Nat × Nat × Nat)}
    (h : ∀ p ∈ l, p.1 = p.2.1 ∧ p.1 = p.2.2) :
    rgb_to_gray l = some (l.map (fun p => p.1)) := by
  induction l with
  | nil => rfl
  | cons p rest ih =>
      obtain ⟨r, g, b⟩ := p
      obtain ⟨hg, hb⟩ : r = g ∧ r = b := h (r, g, b) (by simp)
      subst hg; subst hb
      have ih2 := ih (fun q hq => h q (by simp [hq]))
      simp [rgb_to_gray, ih2]

theorem rgb_to_gray_bail {l : List (Nat × Nat × Nat)}
    (h : ∃ p ∈ l, ¬(p.1 = p.2.1 ∧ p.1 = p.2.2)) :
    rgb_to_gray l = none := by
  induction l with
  | nil => simp at h
  | cons p rest ih =>
      obtain ⟨r, g, b⟩ := p
      by_cases hc : r = g ∧ r = b
      · obtain ⟨q, hq, hqn⟩ := h
        rcases List.mem_cons.mp hq with rfl | hq'
        · exact absurd hc hqn
        · simp [rgb_to_gray, hc, ih ⟨q, hq', hqn⟩]
      · simp [rgb_to_gray, hc]

theorem ga_to_gray_all {l : List (Nat × Nat)}
    (h : ∀ p ∈ l, p.2 = 255) :
    ga_to_gray l = some (l.map (fun p => p.1)) := by
  induction l with
  | nil => rfl
  | cons p rest ih =>
      obtain ⟨g, a⟩ := p
      have hp : a = 255 := h (g, a) (by simp)
      have ih2 := ih (fun q hq => h q (by simp [hq]))
      simp [ga_to_gray, hp, ih2]

theorem ga_to_gray_bail {l : List (Nat × Nat)}
    (h : ∃ p ∈ l, p.2 ≠ 255) :
    ga_to_gray l = none := by
  induction l with
  | nil => simp at h
  | cons p rest ih =>
      obtain ⟨g, a⟩ := p
      by_cases hc : a = 255
      · obtain ⟨q, hq, hqn⟩ := h
        rcases List.mem_cons.mp hq with rfl | hq'
        · exact absurd hc hqn
        · simp [ga_to_gray, hc, ih ⟨q, hq', hqn⟩]
      · simp [ga_to_gray, hc]

theorem alpha_bytes_eq : ∀ (l : List Nat), l.length % 4 = 0 →
    alpha_bytes l = (iter_rgba l).map (fun p => p.2.2.2)
  | [], _ => rfl
  | [_], h => by simp at h
  | [_, _], h => by simp at h
  | [_, _, _], h => by simp at h
  | a :: b :: c :: d :: rest, h => by
      have hr : rest.length % 4 = 0 := by
        simp [List.length_cons] at h; omega
      simp [alpha_bytes, iter_rgba, alpha_bytes_eq rest hr]

theorem step_by_4_eq : ∀ (l : List Nat), l.length % 4 = 0 →
    step_by_4 l = (iter_rgba l).map (fun p => p.1)
  | [], _ => rfl
  | [_], h => by simp at h
  | [_, _], h => by simp at h
  | [_, _, _], h => by simp at h
  | a :: b :: c :: d :: rest, h => by
      have hr : rest.length % 4 = 0 := by
        simp [List.length_cons] at h; omega
      simp [step_by_4, iter_rgba, step_by_4_eq rest hr]

theorem rgba_drop_alpha_eq (l : List (Nat × Nat × Nat × Nat)) :
    rgba_drop_alpha l = l.flatMap (fun p => [p.1, p.2.1, p.2.2.1]) := by
  induction l with
  | nil => rfl
  | cons p rest ih =>
      obtain ⟨r, g, b, a⟩ := p
      simp [rgba_drop_alpha, ih]

theorem iter_rgb_length : ∀ (l : List Nat),
    (iter_rgb l).length = l.length / 3
  | [] => rfl
  | [_] => by simp [iter_rgb]
  | [_, _] => by simp [iter_rgb]
  | a :: b :: c :: rest => by
      have := iter_rgb_length rest
      simp [iter_rgb, this]
      omega

/-! ## Claims about the color-model reducer -/

/-- C2: for an RGB buffer (length a multiple of 3), if every pixel satisfies
r = g = b then `trivial_compress` returns a Grayscale buffer with exactly one
byte per pixel, each equal to the pixel's shared channel value; if some pixel
has differing channels it returns the original buffer and RGB layout. -/
theorem trivial_compress_rgb_spec (data : List Nat)
    (h3 : data.length % 3 = 0) :
    ((∀ p ∈ iter_rgb data, p.1 = p.2.1 ∧ p.1 = p.2.2) →
      trivial_compress data .Rgb =
        some ((iter_rgb data).map (fun p => p.1), .Grayscale) ∧
      ((iter_rgb data).map (fun p => p.1)).length = data.length / 3) ∧
    ((∃ p ∈ iter_rgb data, ¬(p.1 = p.2.1 ∧ p.1 = p.2.2)) →
      trivial_compress data .Rgb = some (data, .Rgb)) := by
  constructor
  · intro h
    refine ⟨by simp [trivial_compress, rgb_to_gray_all h], ?_⟩
    simp [iter_rgb_length]
  · intro h
    simp [trivial_compress, rgb_to_gray_bail h]

theorem trivial_compress_rgb_spec_witness :
    trivial_compress [7, 7, 7, 9, 9, 9] .Rgb = some ([7, 9], .Grayscale) := by
  have h := (trivial_compress_rgb_spec [7, 7, 7, 9, 9, 9] (by decide)).1
      (by decide)
  simpa using h.1

/-- C8: for a GrayAlpha buffer (length a multiple of 2), if every alpha byte
is 255 then `trivial_compress` returns a Grayscale buffer of exactly the gray
byte of each pixel in order; if any alpha differs from 255 it returns the
original buffer and GrayAlpha layout. -/
theorem trivial_compress_ga_spec (data : List Nat)
    (h2 : data.length % 2 = 0) :
    ((∀ p ∈ iter_ga data, p.2 = 255) →
      trivial_compress data .GrayscaleAlpha =
        some ((iter_ga data).map (fun p => p.1), .Grayscale)) ∧
    ((∃ p ∈ iter_ga data, p.2 ≠ 255) →
      trivial_compress data .GrayscaleAlpha =
        some (data, .GrayscaleAlpha)) := by
  constructor
  · intro h
    simp [trivial_compress, ga_to_gray_all h]
  · intro h
    simp [trivial_compress, ga_to_gray_bail h]

theorem trivial_compress_ga_spec_witness :
    trivial_compress [5, 255, 6, 255] .GrayscaleAlpha =
      some ([5, 6], .Grayscale) := by
  have h := (trivial_compress_ga_spec [5, 255, 6, 255] (by decide)).1
      (by decide)
  simpa using h

/-- C9: under the precondition that the input layout is not Indexed,
`trivial_compress` is total — it always returns a result and never reaches
the `unreachable!()` (panic) arm. -/
theorem trivial_compress_total (data : List Nat) (color : ColorType)
    (h : color ≠ ColorType.Indexed) :
    (trivial_compress data color).isSome := by
  cases color with
  | Indexed => exact absurd rfl h
  | Grayscale => simp [trivial_compress]
  | Rgb =>
      cases hg : rgb_to_gray (iter_rgb data) <;> simp [trivial_compress, hg]
  | GrayscaleAlpha =>
      cases hg : ga_to_gray (iter_ga data) <;> simp [trivial_compress, hg]
  | Rgba =>
      simp only [trivial_compress]
      split
      · simp
      · split <;> simp

theorem trivial_compress_total_witness :
    (trivial_compress [1, 2, 3] ColorType.Rgb).isSome :=
  trivial_compress_total [1, 2, 3] ColorType.Rgb (by decide)

/-- C6: an RGBA buffer with at least one alpha byte different from 255 is
returned unchanged with layout RGBA, regardless of its color channels. -/
theorem trivial_compress_rgba_gate (data : List Nat)
    (h4 : data.length % 4 = 0)
    (h : ∃ p ∈ iter_rgba data, p.2.2.2 ≠ 255) :
    trivial_compress data .Rgba = some (data, .Rgba) := by
  have hany : (alpha_bytes data).any (fun a => decide (a ≠ 255)) = true := by
    rw [alpha_bytes_eq data h4]
    simp only [List.any_eq_true]
    obtain ⟨p, hp, hne⟩ := h
    exact ⟨p.2.2.2, List.mem_map_of_mem _ hp, by simp [hne]⟩
  simp only [trivial_compress]
  rw [if_pos hany]

theorem trivial_compress_rgba_gate_witness :
    trivial_compress [10, 10, 10, 254] .Rgba =
      some ([10, 10, 10, 254], .Rgba) :=
  trivial_compress_rgba_gate [10, 10, 10, 254] (by decide)
    ⟨(10, 10, 10, 254), by decide, by decide⟩

/-- C7: for an RGBA buffer in which every alpha byte is 255,
`trivial_compress` returns the per-pixel red bytes as a Grayscale buffer when
every pixel has r = g = b, and otherwise the per-pixel r, g, b bytes (alpha
dropped) as an RGB buffer. -/
theorem trivial_compress_rgba_reduce (data : List Nat)
    (h4 : data.length % 4 = 0)
    (hop : ∀ p ∈ iter_rgba data, p.2.2.2 = 255) :
    ((∀ p ∈ iter_rgba data, p.1 = p.2.1 ∧ p.1 = p.2.2.1) →
      trivial_compress data .Rgba =
        some ((iter_rgba data).map (fun p => p.1), .Grayscale)) ∧
    ((∃ p ∈ iter_rgba data, ¬(p.1 = p.2.1 ∧ p.1 = p.2.2.1)) →
      trivial_compress data .Rgba =
        some ((iter_rgba data).flatMap (fun p => [p.1, p.2.1, p.2.2.1]),
          .Rgb)) := by
  have hany : (alpha_bytes data).any (fun a => decide (a ≠ 255)) = false := by
    rw [alpha_bytes_eq data h4]
    simp only [List.any_eq_false, List.mem_map]
    rintro a ⟨p, hp, rfl⟩
    simp [hop p hp]
  constructor
  · intro h
    have hall : (iter_rgba data).all
        (fun p => decide (p.1 = p.2.1 ∧ p.1 = p.2.2.1)) = true := by
      simp only [List.all_eq_true]
      intro p hp
      simpa using h p hp
    simp only [trivial_compress]
    rw [if_neg (by rw [hany]; simp), if_pos hall, step_by_4_eq data h4]
  · intro h
    have hall : (iter_rgba data).all
        (fun p => decide (p.1 = p.2.1 ∧ p.1 = p.2.2.1)) = false := by
      obtain ⟨p, hp, hne⟩ := h
      simp only [List.all_eq_false]
      exact ⟨p, hp, by simpa using hne⟩
    simp only [trivial_compress]
    rw [if_neg (by rw [hany]; simp), if_neg (by rw [hall]; simp),
      rgba_drop_alpha_eq]

theorem trivial_compress_rgba_reduce_witness :
    trivial_compress [4, 4, 4, 255, 9, 9, 9, 255] .Rgba =
      some ([4, 9], .Grayscale) := by
  have h := (trivial_compress_rgba_reduce [4, 4, 4, 255, 9, 9, 9, 255]
      (by decide) (by decide)).1 (by decide)
  simpa using h

/-- C10: when the buffer length is not a multiple of the channel count, the
trailing partial pixel is silently dropped: an RGB buffer of length 3n+2
whose n complete pixels all have r = g = b reduces to a Grayscale buffer of
exactly n bytes, and `calc_pallet` likewise indexes only the n complete
pixels. -/
theorem trailing_bytes_dropped (data : List Nat) (n : Nat)
    (hlen : data.length = 3 * n + 2)
    (hall : ∀ p ∈ iter_rgb data, p.1 = p.2.1 ∧ p.1 = p.2.2) :
    (∃ gray, trivial_compress data .Rgb = some (gray, .Grayscale) ∧
      gray.length = n) ∧
    (∀ ord, ValidOrder data ord → (iter_rgb data).dedup.length ≤ 256 →
      ∃ buf pal,
        calc_pallet data .Rgb ord = (buf, some pal, .Indexed, .Eight) ∧
        buf.length = n) := by
  have hlen3 : (iter_rgb data).length = n := by
    rw [iter_rgb_length, hlen]; omega
  constructor
  · refine ⟨(iter_rgb data).map (fun p => p.1), ?_, ?_⟩
    · simp [trivial_compress, rgb_to_gray_all hall]
    · simp [hlen3]
  · intro ord hv h256
    have hc : ¬ ((iter_rgb data).dedup.length > 256) := by omega
    refine ⟨(iter_rgb data).map (pallet_index ord), pallet_flatten ord,
      ?_, ?_⟩
    · simp [calc_pallet, hc]
    · simp [hlen3]

theorem trailing_bytes_dropped_witness :
    ∃ gray, trivial_compress [5, 5, 5, 7, 9] .Rgb =
      some (gray, .Grayscale) ∧ gray.length = 1 :=
  (trailing_bytes_dropped [5, 5, 5, 7, 9] 1 (by decide) (by decide)).1

/-! ## The filter search -/

/-- C5: the filter loop tries exactly the five strategies of `filterList` in
order and keeps the output of the strategy with the strictly smallest
encoded length; on ties the strategy earliest in the enumeration wins. -/
theorem selectBest_spec (enc : FilterType → List Nat)
    (h : ∀ f ∈ filterList, (enc f).length < usizeMax) :
    ∃ f, f ∈ filterList ∧
      (selectBest enc).2 = enc f ∧
      (∀ g ∈ filterList, (enc f).length ≤ (enc g).length) ∧
      (∀ g ∈ filterList,
        (enc g).length ≤ (enc f).length → filterIdx f ≤ filterIdx g) := by
  have h0 := h .NoFilter (by simp [filterList])
  simp only [selectBest, filterList, List.foldl]
  rw [if_pos h0]
  split_ifs with h1 h2 h3 h4 h5 h6 h7 h8 h9 h10 h11 h12 h13 h14 h15 <;>
    refine ⟨_, by simp, rfl, ?_, ?_⟩ <;>
    (intro g hg
     fin_cases hg <;> (try simp only [filterIdx]) <;> (try dsimp only at *) <;>
       omega)

theorem selectBest_spec_witness :
    ∃ f, f ∈ filterList ∧
      (selectBest (fun _ => [0])).2 = (fun _ : FilterType => ([0] : List Nat)) f ∧
      (∀ g ∈ filterList,
        ((fun _ : FilterType => ([0] : List Nat)) f).length ≤
          ((fun _ : FilterType => ([0] : List Nat)) g).length) ∧
      (∀ g ∈ filterList,
        ((fun _ : FilterType => ([0] : List Nat)) g).length ≤
          ((fun _ : FilterType => ([0] : List Nat)) f).length →
          filterIdx f ≤ filterIdx g) :=
  selectBest_spec (fun _ => [0]) (by decide)

/-! ## Helper lemmas about the palette builder -/

theorem pallet_flatten_length (ord : List ((Nat × Nat × Nat) × Nat)) :
    (pallet_flatten ord).length = 3 * ord.length := by
  induction ord with
  | nil => rfl
  | cons p rest ih =>
      obtain ⟨⟨r, g, b⟩, n⟩ := p
      simp [pallet_flatten, ih]
      ring

theorem validOrder_length {data : List Nat}
    {ord : List ((Nat × Nat × Nat) × Nat)} (hv : ValidOrder data ord) :
    ord.length = (iter_rgb data).dedup.length := by
  obtain ⟨hnd, hmem, hcov, _⟩ := hv
  have hperm : (ord.map Prod.fst).Perm (iter_rgb data).dedup := by
    rw [List.perm_ext_iff_of_nodup hnd (List.nodup_dedup _)]
    intro c
    constructor
    · intro hc
      obtain ⟨p, hp, rfl⟩ := List.mem_map.mp hc
      exact List.mem_dedup.mpr (hmem p hp).1
    · intro hc
      exact hcov c (List.mem_dedup.mp hc)
  simpa using hperm.length_eq

theorem pallet_index_cons_ne (rest : List ((Nat × Nat × Nat) × Nat))
    {p : (Nat × Nat × Nat) × Nat} {c : Nat × Nat × Nat} (hc : ¬ p.1 = c) :
    pallet_index (p :: rest) c = pallet_index rest c + 1 := by
  have hd : (decide (p.1 = c)) = false := by simp [hc]
  simp only [pallet_index, List.findIdx_cons, hd, cond_false]

theorem pallet_index_cons_eq (rest : List ((Nat × Nat × Nat) × Nat))
    {p : (Nat × Nat × Nat) × Nat} {c : Nat × Nat × Nat} (hc : p.1 = c) :
    pallet_index (p :: rest) c = 0 := by
  have hd : (decide (p.1 = c)) = true := by simp [hc]
  simp only [pallet_index, List.findIdx_cons, hd, cond_true]

theorem pallet_index_lt {ord : List ((Nat × Nat × Nat) × Nat)}
    {c : Nat × Nat × Nat} (h : c ∈ ord.map Prod.fst) :
    pallet_index ord c < ord.length := by
  induction ord with
  | nil => simp at h
  | cons p rest ih =>
      by_cases hc : p.1 = c
      · simp [pallet_index_cons_eq rest hc]
      · have hm : c ∈ rest.map Prod.fst := by
          rcases List.mem_map.mp h with ⟨q, hq, rfl⟩
          rcases List.mem_cons.mp hq with rfl | hq'
          · exact absurd rfl hc
          · exact List.mem_map_of_mem _ hq'
        rw [pallet_index_cons_ne rest hc, List.length_cons]
        exact Nat.succ_lt_succ (ih hm)

theorem pallet_index_fst {ord : List ((Nat × Nat × Nat) × Nat)}
    {c : Nat × Nat × Nat} (h : c ∈ ord.map Prod.fst) :
    ∀ (hlt : pallet_index ord c < ord.length),
      (ord.get ⟨pallet_index ord c, hlt⟩).1 = c := by
  induction ord with
  | nil => simp at h
  | cons p rest ih =>
      intro hlt
      by_cases hc : p.1 = c
      · have h0 := pallet_index_cons_eq rest hc
        subst hc
        simp [List.get_eq_getElem, h0]
      · have hm : c ∈ rest.map Prod.fst := by
          rcases List.mem_map.mp h with ⟨q, hq, rfl⟩
          rcases List.mem_cons.mp hq with rfl | hq'
          · exact absurd rfl hc
          · exact List.mem_map_of_mem _ hq'
        have hlt' : pallet_index rest c < rest.length := pallet_index_lt hm
        have heq := ih hm hlt'
        have h1 := pallet_index_cons_ne rest hc
        simp only [List.get_eq_getElem] at heq ⊢
        simp only [h1]
        simp only [List.getElem_cons_succ]
        exact heq

theorem pallet_lookup_flatten :
    ∀ (ord : List ((Nat × Nat × Nat) × Nat)) (j : Nat)
      (hj : j < ord.length),
      pallet_lookup (pallet_flatten ord) j = some (ord.get ⟨j, hj⟩).1
  | [], j, hj => by simp at hj
  | p :: rest, 0, hj => by
      obtain ⟨⟨r, g, b⟩, n⟩ := p
      simp [pallet_lookup, pallet_flatten]
  | p :: rest, j + 1, hj => by
      obtain ⟨⟨r, g, b⟩, n⟩ := p
      have hj' : j < rest.length := by simpa using hj
      have ih := pallet_lookup_flatten rest j hj'
      simp only [pallet_lookup, pallet_flatten] at ih ⊢
      rw [show 3 * (j + 1) = 3 * j + 1 + 1 + 1 by ring]
      rw [List.drop_succ_cons, List.drop_succ_cons, List.drop_succ_cons]
      exact ih

/-! ## Claims about the palette builder -/

/-- C3: with at most 256 distinct colors (256 included) `calc_pallet`
produces an Indexed buffer and a palette holding exactly one 3-byte entry
per distinct color; with more than 256 distinct colors it returns the input
unchanged as RGB with no palette. -/
theorem calc_pallet_boundary (data : List Nat)
    (ord : List ((Nat × Nat × Nat) × Nat)) (hv : ValidOrder data ord) :
    ((iter_rgb data).dedup.length ≤ 256 →
      calc_pallet data .Rgb ord =
        ((iter_rgb data).map (pallet_index ord), some (pallet_flatten ord),
          .Indexed, .Eight) ∧
      (pallet_flatten ord).length = 3 * (iter_rgb data).dedup.length) ∧
    (256 < (iter_rgb data).dedup.length →
      calc_pallet data .Rgb ord = (data, none, .Rgb, .Eight)) := by
  constructor
  · intro h256
    have hc : ¬ ((iter_rgb data).dedup.length > 256) := by omega
    constructor
    · simp [calc_pallet, hc]
    · rw [pallet_flatten_length, validOrder_length hv]
  · intro h256
    simp [calc_pallet, h256]

theorem calc_pallet_boundary_witness :
    calc_pallet [1, 2, 3] .Rgb [((1, 2, 3), 1)] =
      ([0], some [1, 2, 3], .Indexed, .Eight) := by
  have h := (calc_pallet_boundary [1, 2, 3] [((1, 2, 3), 1)]
      (by decide)).1 (by decide)
  rw [h.1]
  rfl

/-- C4: whenever `calc_pallet` indexes an RGB buffer, the output has one
index byte per (complete) input pixel, every index byte is below the number
of palette entries (the distinct-color count, at most 256), and looking each
index byte up in the palette recovers exactly the original pixel. -/
theorem calc_pallet_indexed_invertible (data : List Nat)
    (ord : List ((Nat × Nat × Nat) × Nat)) (hv : ValidOrder data ord)
    (h256 : (iter_rgb data).dedup.length ≤ 256) :
    ∃ (buf pal : List Nat),
      calc_pallet data .Rgb ord = (buf, some pal, .Indexed, .Eight) ∧
      buf.length = (iter_rgb data).length ∧
      pal.length = 3 * (iter_rgb data).dedup.length ∧
      (iter_rgb data).dedup.length ≤ 256 ∧
      ∀ (i : Nat), ∀ c ∈ (iter_rgb data)[i]?, ∀ b ∈ buf[i]?,
        b < (iter_rgb data).dedup.length ∧
        pallet_lookup pal b = some c := by
  have hc : ¬ ((iter_rgb data).dedup.length > 256) := by omega
  refine ⟨(iter_rgb data).map (pallet_index ord), pallet_flatten ord,
    by simp [calc_pallet, hc], by simp, ?_, h256, ?_⟩
  · rw [pallet_flatten_length, validOrder_length hv]
  · intro i c hci b hbi
    have hc' : (iter_rgb data)[i]? = some c := Option.mem_def.mp hci
    have hb' : b = pallet_index ord c := by
      have hb2 := Option.mem_def.mp hbi
      rw [List.getElem?_map, hc'] at hb2
      exact (by simpa using hb2 : pallet_index ord c = b).symm
    subst hb'
    have hcm : c ∈ iter_rgb data := List.getElem?_mem hc'
    have hcd : c ∈ ord.map Prod.fst := hv.2.2.1 c hcm
    have hlt0 : pallet_index ord c < ord.length := pallet_index_lt hcd
    constructor
    · rw [← validOrder_length hv]
      exact hlt0
    · rw [pallet_lookup_flatten ord _ hlt0, pallet_index_fst hcd hlt0]

theorem calc_pallet_indexed_invertible_witness :
    ∃ (buf pal : List Nat),
      calc_pallet [1, 2, 3] .Rgb [((1, 2, 3), 1)] =
        (buf, some pal, .Indexed, .Eight) ∧
      buf.length = (iter_rgb [1, 2, 3]).length ∧
      pal.length = 3 * (iter_rgb [1, 2, 3]).dedup.length ∧
      (iter_rgb [1, 2, 3]).dedup.length ≤ 256 ∧
      ∀ (i : Nat), ∀ c ∈ (iter_rgb [1, 2, 3])[i]?, ∀ b ∈ buf[i]?,
        b < (iter_rgb [1, 2, 3]).dedup.length ∧
        pallet_lookup pal b = some c :=
  calc_pallet_indexed_invertible [1, 2, 3] [((1, 2, 3), 1)] (by decide)
    (by decide)

/-! ## Determinism of the pipeline (C1) -/

/-- Counterexample to C1 as stated (cross-run determinism): for the two-pixel
input whose colors (0,0,0) and (1,1,1) both occur once (a frequency tie),
both pair orders satisfy everything the HashMap iteration plus
`sort_unstable_by` guarantee (`ValidOrder`), yet `calc_pallet` gives them
different palettes and different index buffers — the palette index
assignment is not a function of the input alone. -/
theorem calc_pallet_tie_not_unique :
    ValidOrder [0, 0, 0, 1, 1, 1] [((0, 0, 0), 1), ((1, 1, 1), 1)] ∧
    ValidOrder [0, 0, 0, 1, 1, 1] [((1, 1, 1), 1), ((0, 0, 0), 1)] ∧
    calc_pallet [0, 0, 0, 1, 1, 1] .Rgb [((0, 0, 0), 1), ((1, 1, 1), 1)] ≠
      calc_pallet [0, 0, 0, 1, 1, 1] .Rgb [((1, 1, 1), 1), ((0, 0, 0), 1)] := by
  decide

theorem validOrder_mem_mono {data : List Nat}
    {o₁ o₂ : List ((Nat × Nat × Nat) × Nat)} (h₁ : ValidOrder data o₁)
    (h₂ : ValidOrder data o₂) {p : (Nat × Nat × Nat) × Nat} (hp : p ∈ o₁) :
    p ∈ o₂ := by
  obtain ⟨hp1, hp2⟩ := h₁.2.1 p hp
  obtain ⟨q, hq, hqe⟩ := List.mem_map.mp (h₂.2.2.1 p.1 hp1)
  have hq2 := h₂.2.1 q hq
  have heq : q = p := Prod.ext hqe (by rw [hq2.2, hqe, ← hp2])
  rwa [← heq]

/-- When the distinct colors of the pixel sequence have pairwise distinct
stored (wrapping-u32) frequencies, a valid `(color, count)` order is
strictly descending. -/
theorem validOrder_strict {data : List Nat}
    {o : List ((Nat × Nat × Nat) × Nat)} (h : ValidOrder data o)
    (hinj : ∀ c₁ ∈ iter_rgb data, ∀ c₂ ∈ iter_rgb data,
      count_u32 data c₁ = count_u32 data c₂ → c₁ = c₂) :
    List.Pairwise (fun a b => b.2 < a.2) o := by
  obtain ⟨hnd, hmem, hcov, hsort⟩ := h
  have hne : List.Pairwise
      (fun a b : (Nat × Nat × Nat) × Nat => a.1 ≠ b.1) o :=
    (List.pairwise_map.mp hnd)
  refine (hsort.and hne).imp_of_mem ?_
  intro a b ha hb hab
  obtain ⟨hle, hne2⟩ := hab
  have ha2 := hmem a ha
  have hb2 := hmem b hb
  rcases Nat.lt_or_ge b.2 a.2 with hlt | hge
  · exact hlt
  · exfalso
    have heq2 : a.2 = b.2 := le_antisymm hge hle
    exact hne2 (hinj a.1 ha2.1 b.1 hb2.1
      (by rw [← ha2.2, ← hb2.2, heq2]))

/-- No-tie uniqueness: two valid `(color, count)` orders for the same data
coincide when the distinct colors have pairwise distinct stored
(wrapping-u32) frequencies. -/
theorem validOrder_unique {data : List Nat}
    {o₁ o₂ : List ((Nat × Nat × Nat) × Nat)} (h₁ : ValidOrder data o₁)
    (h₂ : ValidOrder data o₂)
    (hinj : ∀ c₁ ∈ iter_rgb data, ∀ c₂ ∈ iter_rgb data,
      count_u32 data c₁ = count_u32 data c₂ → c₁ = c₂) :
    o₁ = o₂ := by
  have hperm : o₁.Perm o₂ :=
    (List.perm_ext_iff_of_nodup (List.Nodup.of_map _ h₁.1)
      (List.Nodup.of_map _ h₂.1)).mpr
      (fun p => ⟨validOrder_mem_mono h₁ h₂, validOrder_mem_mono h₂ h₁⟩)
  haveI : IsAntisymm ((Nat × Nat × Nat) × Nat) (fun a b => b.2 < a.2) :=
    ⟨fun a b hab hba => absurd hab (Nat.lt_asymm hba)⟩
  exact List.eq_of_perm_of_sorted hperm (validOrder_strict h₁ hinj)
    (validOrder_strict h₂ hinj)

/-- C1 (amended): the reduction and the filter search are pure functions of
their inputs, and the palette stage is the only run-dependent point; when
the distinct colors of the reduced buffer have pairwise distinct stored
frequencies — i.e. distinct multiplicities mod 2^32, the wrapping u32
counter of the source — any two runs of the whole pipeline (any two valid
`(color, count)` orders) produce identical output bytes for every encoder. -/
theorem pipeline_deterministic
    (enc : List Nat → Option (List Nat) → ColorType → BitDepth →
      FilterType → List Nat)
    (data buf : List Nat) (color c : ColorType)
    (o₁ o₂ : List ((Nat × Nat × Nat) × Nat))
    (hb : trivial_compress data color = some (buf, c))
    (h₁ : ValidOrder buf o₁) (h₂ : ValidOrder buf o₂)
    (hinj : ∀ c₁ ∈ iter_rgb buf, ∀ c₂ ∈ iter_rgb buf,
      count_u32 buf c₁ = count_u32 buf c₂ → c₁ = c₂) :
    pipeline enc data color o₁ = pipeline enc data color o₂ := by
  rw [validOrder_unique h₁ h₂ hinj]

theorem pipeline_deterministic_witness :
    pipeline (fun b _ _ _ _ => b) [1, 2, 3, 1, 2, 3, 4, 5, 6] .Rgb
        [((1, 2, 3), 2), ((4, 5, 6), 1)] =
      pipeline (fun b _ _ _ _ => b) [1, 2, 3, 1, 2, 3, 4, 5, 6] .Rgb
        [((1, 2, 3), 2), ((4, 5, 6), 1)] :=
  pipeline_deterministic (fun b _ _ _ _ => b) [1, 2, 3, 1, 2, 3, 4, 5, 6]
    [1, 2, 3, 1, 2, 3, 4, 5, 6] .Rgb .Rgb
    [((1, 2, 3), 2), ((4, 5, 6), 1)] [((1, 2, 3), 2), ((4, 5, 6), 1)]
    (by decide) (by decide) (by decide) (by decide)
